import Mathlib

/-!
Verification of the time-series statistics engine of
`narimanvt/TimeseriesAnalysisProject`.

The repository ships a React front end (`src/App.tsx`,
`src/components/…`) and TypeScript type declarations
(`src/utils/types.ts`); the statistics engine itself
(`src/utils/timeSeriesAnalysis.py`, served by `api_server.py`) is not
part of the available sources, so the engine definitions below are
modelled from the specification (§4 of the design document) and each
such definition is marked `Modelled from the spec`.  Everything is
embedded over exact rationals (`ℚ`): the engine's arithmetic is plain
field arithmetic on the sample values.
-/

namespace TSA

/-- The `AnalysisResults` record of `src/utils/types.ts`:
ACF entries, PACF entries, trend slope, trend decision, and the
optional narrative string filled in by the external collaborator. -/
structure AnalysisResults where
  autocorrelations : List (ℕ × ℚ)
  pacf : List (ℕ × ℚ)
  trendCoefficient : ℚ
  hasTrend : Bool
  aiFeedback : Option String
deriving Repr, DecidableEq

/-! ### Autocorrelation engine -/

/-- Modelled from the spec (§4.2, engine source `timeSeriesAnalysis.py`
absent): arithmetic mean of the series values. -/
def seriesMean (x : List ℚ) : ℚ := x.sum / x.length

/-- Modelled from the spec (§4.2): value at position `t` centered by the
mean of the entire series. -/
def centered (x : List ℚ) (t : ℕ) : ℚ := x.getD t 0 - seriesMean x

/-- Modelled from the spec (§4.2): sum of lag-`k` products of centered
values, `∑_{t} a_t a_{t+k}` over the `n - k` overlapping pairs. -/
def covSum (x : List ℚ) (k : ℕ) : ℚ :=
  ∑ t ∈ Finset.range (x.length - k), centered x t * centered x (t + k)

/-- Modelled from the spec (§4.2): biased sample autocovariance at lag
`k` (divisor `n` at every lag). -/
def autocovariance (x : List ℚ) (k : ℕ) : ℚ := covSum x k / x.length

/-- Modelled from the spec (§4.2): sample ACF value at lag `k`, the
lag-`k` autocovariance divided by the variance, with the explicit
zero-variance branch returning `0`. -/
def acfValue (x : List ℚ) (k : ℕ) : ℚ :=
  if autocovariance x 0 = 0 then 0 else autocovariance x k / autocovariance x 0

/-- Modelled from the spec (§4.2): `computeACF` returns one
`LagCoefficient` per lag `1 .. maxLag`, in ascending order. -/
def computeACF (x : List ℚ) (maxLag : ℕ) : List (ℕ × ℚ) :=
  (List.range maxLag).map (fun i => (i + 1, acfValue x (i + 1)))

/-! ### PACF engine (Durbin–Levinson) -/

/-- Modelled from the spec (§4.3): the small positive cutoff below which
the Durbin–Levinson denominator is treated as degenerate. -/
def epsilon : ℚ := 1 / 10 ^ 10

/-- One-based read of a coefficient vector stored as a list:
`coef p j` is `φ[j]`, and `0` beyond the stored order. -/
def coef (p : List ℚ) (j : ℕ) : ℚ := p.getD (j - 1) 0

/-- Modelled from the spec (§4.3): numerator of the Durbin–Levinson
update at order `k`, `ρ_k - ∑_{j=1}^{k-1} φ_{k-1}[j]·ρ_{k-j}`. -/
def dlNum (ρ : ℕ → ℚ) (p : List ℚ) (k : ℕ) : ℚ :=
  ρ k - ∑ j ∈ Finset.Icc 1 (k - 1), coef p j * ρ (k - j)

/-- Modelled from the spec (§4.3): denominator of the Durbin–Levinson
update at order `k`, `1 - ∑_{j=1}^{k-1} φ_{k-1}[j]·ρ_j` (the prediction
error of the order-`k-1` model; it equals the running product of the
`1 - φ_{j}[j]²` factors). -/
def dlDenom (ρ : ℕ → ℚ) (p : List ℚ) (k : ℕ) : ℚ :=
  1 - ∑ j ∈ Finset.Icc 1 (k - 1), coef p j * ρ j

/-- Working state of the Durbin–Levinson recursion: the current
coefficient vector `φ_k[1..k]` and the degeneracy flag that
short-circuits all remaining lags to `0`. -/
structure DLState where
  phi : List ℚ
  dead : Bool
deriving Repr, DecidableEq

/-- Modelled from the spec (§4.3): one Durbin–Levinson step.  If the
denominator falls below `epsilon` the state is marked degenerate and no
division is performed; otherwise `φ_k[k] = num/den` and
`φ_k[j] = φ_{k-1}[j] - φ_k[k]·φ_{k-1}[k-j]`. -/
def dlStep (ρ : ℕ → ℚ) (s : DLState) : DLState :=
  if s.dead then s
  else
    let k := s.phi.length + 1
    if dlDenom ρ s.phi k < epsilon then ⟨s.phi, true⟩
    else
      let φ := dlNum ρ s.phi k / dlDenom ρ s.phi k
      ⟨(s.phi.zipWith (fun a b => a - φ * b) s.phi.reverse) ++ [φ], false⟩

/-- Modelled from the spec (§4.3): state of the recursion after `k`
steps (order-`k` coefficient vector when no degeneracy occurred). -/
def dlIter (ρ : ℕ → ℚ) : ℕ → DLState
  | 0 => ⟨[], false⟩
  | k + 1 => dlStep ρ (dlIter ρ k)

/-- Modelled from the spec (§4.3): the PACF value reported for lag `k`
is `φ_k[k]`; once the recursion is degenerate the vector stops growing
and the reported value is `0`. -/
def pacfValue (ρ : ℕ → ℚ) (k : ℕ) : ℚ := coef (dlIter ρ k).phi k

/-- ACF lookup function used by the PACF engine: `ρ k` read from the
`computeACF` output list (lag `k` sits at index `k - 1`). -/
def rhoOf (acf : List (ℕ × ℚ)) (k : ℕ) : ℚ := (acf.getD (k - 1) (0, 0)).2

/-- Modelled from the spec (§4.3): `computePACF` returns one
`LagCoefficient` per lag `1 .. maxLag`, in ascending order, computed by
the Durbin–Levinson recursion over the given ACF values. -/
def computePACF (acf : List (ℕ × ℚ)) (maxLag : ℕ) : List (ℕ × ℚ) :=
  (List.range maxLag).map (fun i => (i + 1, pacfValue (rhoOf acf) (i + 1)))

/-! ### Trend estimator -/

/-- Modelled from the spec (§4.4): mean of the regression index
`1, …, n`, i.e. `(n+1)/2`. -/
def indexMean (n : ℕ) : ℚ := ((n : ℚ) + 1) / 2

/-- Modelled from the spec (§4.4): centered sum of squares of the index
`1, …, n`. -/
def sxx (n : ℕ) : ℚ :=
  ∑ i ∈ Finset.range n, ((i + 1 : ℚ) - indexMean n) ^ 2

/-- Modelled from the spec (§4.4): centered cross sum of index against
values. -/
def sxy (x : List ℚ) : ℚ :=
  ∑ i ∈ Finset.range x.length,
    ((i + 1 : ℚ) - indexMean x.length) * (x.getD i 0 - seriesMean x)

/-- Modelled from the spec (§4.4): ordinary-least-squares slope of the
values against the index `1 .. n` (with the degenerate `n ≤ 1` case
defined as `0`). -/
def trendCoefficient (x : List ℚ) : ℚ :=
  if sxx x.length = 0 then 0 else sxy x / sxx x.length

/-- Modelled from the spec (§4.4, §8 and the 1.96/√n band of
`TimeSeriesChart.tsx`): the trend is significant when the slope exceeds
the 95% band `1.96/√n`, stated squared so the test is exact over `ℚ`:
`hasTrend ↔ slope² · n > 1.96²`. -/
def hasTrend (x : List ℚ) : Bool :=
  decide ((49 / 25 : ℚ) ^ 2 < trendCoefficient x ^ 2 * x.length)

/-- Modelled from the spec (§4.4): `estimateTrend` reports the OLS
slope and the significance decision. -/
def estimateTrend (x : List ℚ) : ℚ × Bool := (trendCoefficient x, hasTrend x)

/-- Spec-side definition (glossary: "OLS … linear regression minimizing
squared residuals"): the sum of squared residuals of the affine model
`a + b·i` over the evenly spaced index `i = 1..n`.  `trendCoefficient`
is compared against the minimizer of this criterion. -/
def sse (x : List ℚ) (a b : ℚ) : ℚ :=
  ∑ i ∈ Finset.range x.length, (x.getD i 0 - (a + b * ((i : ℚ) + 1))) ^ 2

/-- The OLS intercept that pairs with `trendCoefficient` as slope. -/
def olsIntercept (x : List ℚ) : ℚ :=
  seriesMean x - trendCoefficient x * indexMean x.length

/-! ### Coordinator and caller-side enrichment -/

/-- Modelled from the spec (§4.5): the coordinator picks
`maxLag = min(cap, n-1)`, runs ACF, PACF (over the ACF output) and the
trend estimator, and assembles the result with no narrative. -/
def analyze (x : List ℚ) (cap : ℕ) : AnalysisResults :=
  let maxLag := min cap (x.length - 1)
  let acf := computeACF x maxLag
  { autocorrelations := acf
    pacf := computePACF acf maxLag
    trendCoefficient := trendCoefficient x
    hasTrend := hasTrend x
    aiFeedback := none }

/-- From `src/App.tsx` (`handleCalculate`): the narrative-feedback call
is attempted after the analysis; on success the `aiFeedback` field is
filled in, on failure (`catch` / non-ok response, modelled as `none`)
the already-computed result is kept as is. -/
def applyAiFeedback (r : AnalysisResults) (o : Option String) : AnalysisResults :=
  match o with
  | some fb => { r with aiFeedback := some fb }
  | none => r

/-! ### Chart significance band -/

/-- From `src/components/TimeSeriesChart.tsx` lines 29–30:
`const confidenceLimit = n > 0 ? 1.96 / Math.sqrt(n) : 0`. -/
noncomputable def confidenceLimit (n : ℕ) : ℝ :=
  if 0 < n then 1.96 / Real.sqrt n else 0

/-! ### Structural lemmas about the Durbin–Levinson recursion -/

lemma dlDenom_nil (ρ : ℕ → ℚ) (p : List ℚ) : dlDenom ρ p 1 = 1 := by
  simp [dlDenom]

lemma dlNum_nil (ρ : ℕ → ℚ) (p : List ℚ) : dlNum ρ p 1 = ρ 1 := by
  simp [dlNum]

lemma dlIter_one (ρ : ℕ → ℚ) : dlIter ρ 1 = ⟨[ρ 1], false⟩ := by
  have h : ¬ ((1 : ℚ) < epsilon) := by norm_num [epsilon]
  simp [dlIter, dlStep, dlDenom_nil, dlNum_nil, h]

lemma pacfValue_one (ρ : ℕ → ℚ) : pacfValue ρ 1 = ρ 1 := by
  simp [pacfValue, dlIter_one, coef]

/-- Length/degeneracy invariant: while alive, the coefficient vector has
exactly order `k`; once degenerate, it is strictly shorter than `k`. -/
lemma dlIter_length (ρ : ℕ → ℚ) :
    ∀ k, ((dlIter ρ k).dead = false → (dlIter ρ k).phi.length = k) ∧
      ((dlIter ρ k).dead = true → (dlIter ρ k).phi.length < k) := by
  intro k
  induction k with
  | zero => simp [dlIter]
  | succ k ih =>
    have hstep : dlIter ρ (k + 1) = dlStep ρ (dlIter ρ k) := rfl
    rcases hd : (dlIter ρ k).dead with _ | _
    · have hlen := ih.1 hd
      rw [hstep]
      simp only [dlStep, hd, Bool.false_eq_true, if_false, hlen]
      by_cases hden : dlDenom ρ (dlIter ρ k).phi (k + 1) < epsilon
      · rw [if_pos hden]
        refine ⟨fun h => by simp at h, fun _ => ?_⟩
        simp [hlen]
      · rw [if_neg hden]
        refine ⟨fun _ => ?_, fun h => by simp at h⟩
        simp [List.length_zipWith, hlen]
    · have hfr : dlStep ρ (dlIter ρ k) = dlIter ρ k := by
        simp [dlStep, hd]
      rw [hstep, hfr]
      refine ⟨fun h => by rw [h] at hd; simp at hd, fun _ => ?_⟩
      exact Nat.lt_succ_of_lt (ih.2 hd)

/-- Once degenerate, the recursion state is frozen. -/
lemma dlIter_frozen (ρ : ℕ → ℚ) (k : ℕ) (hd : (dlIter ρ k).dead = true) :
    ∀ m, k ≤ m → dlIter ρ m = dlIter ρ k := by
  intro m hm
  induction m with
  | zero =>
    have : k = 0 := Nat.le_zero.mp hm
    simp [this]
  | succ m ih =>
    rcases Nat.lt_or_ge k (m + 1) with h | h
    · have hkm : k ≤ m := Nat.lt_succ_iff.mp h
      have hfrozen := ih hkm
      have : (dlIter ρ m).dead = true := by rw [hfrozen]; exact hd
      show dlStep ρ (dlIter ρ m) = dlIter ρ k
      rw [← hfrozen]
      simp [dlStep, this]
    · have : k = m + 1 := le_antisymm hm h
      simp [this]

/-- A step that stayed alive did divide, and divided by a denominator
at least `epsilon`. -/
lemma alive_denom (ρ : ℕ → ℚ) (m : ℕ) (h : (dlIter ρ (m + 1)).dead = false) :
    epsilon ≤ dlDenom ρ (dlIter ρ m).phi (m + 1) := by
  have hstep : dlIter ρ (m + 1) = dlStep ρ (dlIter ρ m) := rfl
  rcases hd : (dlIter ρ m).dead with _ | _
  · have hlen := (dlIter_length ρ m).1 hd
    by_contra hlt
    push_neg at hlt
    rw [hstep] at h
    simp only [dlStep, hd, Bool.false_eq_true, if_false, hlen] at h
    rw [if_pos hlt] at h
    simp at h
  · exfalso
    rw [hstep] at h
    simp [dlStep, hd] at h

/-- A below-`epsilon` denominator at step `k` makes the recursion
degenerate at `k`. -/
lemma dead_of_denom_lt (ρ : ℕ → ℚ) (k : ℕ) (hk : 1 ≤ k)
    (hden : dlDenom ρ (dlIter ρ (k - 1)).phi k < epsilon) :
    (dlIter ρ k).dead = true := by
  obtain ⟨m, rfl⟩ : ∃ m, k = m + 1 := ⟨k - 1, by omega⟩
  have hm : m + 1 - 1 = m := rfl
  rw [hm] at hden
  have hstep : dlIter ρ (m + 1) = dlStep ρ (dlIter ρ m) := rfl
  rcases hd : (dlIter ρ m).dead with _ | _
  · have hlen := (dlIter_length ρ m).1 hd
    rw [hstep]
    simp only [dlStep, hd, Bool.false_eq_true, if_false, hlen]
    rw [if_pos hden]
  · rw [hstep]
    simp [dlStep, hd]

/-- Once the recursion is degenerate at step `k`, every lag from `k` on
is reported as `0`. -/
lemma pacfValue_eq_zero_of_dead (ρ : ℕ → ℚ) (k j : ℕ)
    (hd : (dlIter ρ k).dead = true) (hj : k ≤ j) :
    pacfValue ρ j = 0 := by
  have hfr := dlIter_frozen ρ k hd j hj
  have hlen := (dlIter_length ρ k).2 hd
  rw [pacfValue, hfr, coef, List.getD_eq_default]
  omega

/-! ### Boundedness of the ACF values -/

lemma covSum_zero_eq (x : List ℚ) :
    covSum x 0 = ∑ t ∈ Finset.range x.length, centered x t ^ 2 := by
  rw [covSum, Nat.sub_zero]
  apply Finset.sum_congr rfl
  intro t _
  rw [Nat.add_zero, sq]

lemma covSum_zero_nonneg (x : List ℚ) : 0 ≤ covSum x 0 := by
  rw [covSum_zero_eq]
  exact Finset.sum_nonneg fun _ _ => sq_nonneg _

lemma sum_sq_trunc_le (x : List ℚ) (k : ℕ) :
    ∑ t ∈ Finset.range (x.length - k), centered x t ^ 2 ≤ covSum x 0 := by
  rw [covSum_zero_eq]
  apply Finset.sum_le_sum_of_subset_of_nonneg
  · exact Finset.range_subset.mpr (by omega)
  · exact fun t _ _ => sq_nonneg _

lemma sum_sq_shift_le (x : List ℚ) (k : ℕ) :
    ∑ t ∈ Finset.range (x.length - k), centered x (t + k) ^ 2 ≤ covSum x 0 := by
  have hshift : ∑ t ∈ Finset.range (x.length - k), centered x (t + k) ^ 2 =
      ∑ u ∈ Finset.Ico k x.length, centered x u ^ 2 := by
    rw [Finset.sum_Ico_eq_sum_range]
    apply Finset.sum_congr rfl
    intro t _
    rw [Nat.add_comm]
  rw [hshift, covSum_zero_eq]
  apply Finset.sum_le_sum_of_subset_of_nonneg
  · rw [Finset.range_eq_Ico]
    exact Finset.Ico_subset_Ico (Nat.zero_le _) le_rfl
  · exact fun t _ _ => sq_nonneg _

lemma covSum_sq_le (x : List ℚ) (k : ℕ) : covSum x k ^ 2 ≤ covSum x 0 ^ 2 := by
  have hcs := Finset.sum_mul_sq_le_sq_mul_sq (Finset.range (x.length - k))
    (fun t => centered x t) (fun t => centered x (t + k))
  rw [← covSum] at hcs
  calc covSum x k ^ 2
      ≤ (∑ t ∈ Finset.range (x.length - k), centered x t ^ 2) *
        (∑ t ∈ Finset.range (x.length - k), centered x (t + k) ^ 2) := hcs
    _ ≤ covSum x 0 * covSum x 0 := by
        apply mul_le_mul (sum_sq_trunc_le x k) (sum_sq_shift_le x k)
          (Finset.sum_nonneg fun _ _ => sq_nonneg _) (covSum_zero_nonneg x)
    _ = covSum x 0 ^ 2 := (sq (covSum x 0)).symm

lemma abs_covSum_le (x : List ℚ) (k : ℕ) : |covSum x k| ≤ covSum x 0 := by
  have h1 := covSum_sq_le x k
  have h2 := covSum_zero_nonneg x
  rw [abs_le]
  constructor <;> nlinarith

lemma acfValue_eq_ratio (x : List ℚ) (h : autocovariance x 0 ≠ 0) (k : ℕ) :
    acfValue x k = covSum x k / covSum x 0 := by
  have hn : (x.length : ℚ) ≠ 0 := by
    intro h0
    apply h
    rw [autocovariance, h0, div_zero]
  have hc : covSum x 0 ≠ 0 := by
    intro h0
    apply h
    rw [autocovariance, h0, zero_div]
  rw [acfValue, if_neg h, autocovariance, autocovariance]
  field_simp

lemma covSum_zero_pos (x : List ℚ) (h : autocovariance x 0 ≠ 0) :
    0 < covSum x 0 := by
  have hc : covSum x 0 ≠ 0 := by
    intro h0
    apply h
    rw [autocovariance, h0, zero_div]
  exact lt_of_le_of_ne (covSum_zero_nonneg x) (Ne.symm hc)

/-- Every ACF value lies in `[-1, 1]`. -/
lemma acfValue_bounds (x : List ℚ) (k : ℕ) :
    -1 ≤ acfValue x k ∧ acfValue x k ≤ 1 := by
  by_cases h : autocovariance x 0 = 0
  · rw [acfValue, if_pos h]
    norm_num
  · rw [acfValue_eq_ratio x h k]
    have hpos := covSum_zero_pos x h
    have habs := abs_covSum_le x k
    rw [← abs_le]
    rw [abs_div, abs_of_pos hpos]
    rw [div_le_one hpos]
    exact habs

/-! ### Positive semidefiniteness of the sample autocovariances -/

/-- Absolute difference of two lags. -/
def lagDist (i j : ℕ) : ℕ := if i ≤ j then j - i else i - j

lemma lagDist_zero_left (j : ℕ) : lagDist 0 j = j := by
  simp [lagDist]

lemma lagDist_zero_right (i : ℕ) (h : 1 ≤ i) : lagDist i 0 = i := by
  unfold lagDist
  split <;> omega

lemma lagDist_self (i : ℕ) : lagDist i i = 0 := by
  simp [lagDist]

/-- The centered series, zero-padded outside `[0, n)`. -/
def padded (x : List ℚ) (t : ℕ) : ℚ := if t < x.length then centered x t else 0

/-- The zero-padded centered series delayed by `i` positions. -/
def shifted (x : List ℚ) (i t : ℕ) : ℚ := if i ≤ t then padded x (t - i) else 0

/-- Inner product of two delayed copies of the padded series is the
autocovariance sum at the lag difference. -/
lemma shift_orth (x : List ℚ) (K i j : ℕ) (hij : i ≤ j) (hj : j ≤ K) :
    ∑ t ∈ Finset.range (x.length + K), shifted x i t * shifted x j t =
      covSum x (j - i) := by
  have step1 : ∑ t ∈ Finset.range (x.length + K), shifted x i t * shifted x j t =
      ∑ t ∈ Finset.Ico j (x.length + K), shifted x i t * shifted x j t := by
    symm
    apply Finset.sum_subset
    · rw [Finset.range_eq_Ico]
      exact Finset.Ico_subset_Ico (Nat.zero_le _) le_rfl
    · intro t htmem htnot
      rw [Finset.mem_range] at htmem
      rw [Finset.mem_Ico] at htnot
      push_neg at htnot
      have hnle : ¬ j ≤ t := fun hjt => absurd htmem (not_lt.mpr (htnot hjt))
      have hz : shifted x j t = 0 := by rw [shifted, if_neg hnle]
      rw [hz, mul_zero]
  rw [step1, Finset.sum_Ico_eq_sum_range]
  have step3 : ∀ u, shifted x i (j + u) * shifted x j (j + u) =
      padded x (u + (j - i)) * padded x u := by
    intro u
    rw [shifted, shifted, if_pos (by omega : i ≤ j + u), if_pos (by omega : j ≤ j + u)]
    congr 2
    · omega
    · omega
  rw [Finset.sum_congr rfl fun u _ => step3 u]
  have step4 : ∑ u ∈ Finset.range (x.length + K - j),
      padded x (u + (j - i)) * padded x u =
      ∑ u ∈ Finset.range (x.length - (j - i)),
        padded x (u + (j - i)) * padded x u := by
    symm
    apply Finset.sum_subset
    · apply Finset.range_subset.mpr
      omega
    · intro u humem hunot
      rw [Finset.mem_range] at humem
      rw [Finset.mem_range] at hunot
      push_neg at hunot
      have hge : ¬ (u + (j - i) < x.length) := by omega
      rw [padded, if_neg hge, zero_mul]
  rw [step4, covSum]
  apply Finset.sum_congr rfl
  intro u humem
  rw [Finset.mem_range] at humem
  rw [padded, padded, if_pos (by omega), if_pos (by omega)]
  exact mul_comm _ _

/-- The autocovariance sums form a positive semidefinite sequence: the
quadratic form of any coefficient vector is a sum of squares (the Gram
representation through the delayed padded series). -/
lemma gram_psd (x : List ℚ) (K : ℕ) (ψ : ℕ → ℚ) :
    0 ≤ ∑ i ∈ Finset.range (K + 1), ∑ j ∈ Finset.range (K + 1),
      ψ i * ψ j * covSum x (lagDist i j) := by
  have key : ∑ i ∈ Finset.range (K + 1), ∑ j ∈ Finset.range (K + 1),
      ψ i * ψ j * covSum x (lagDist i j) =
      ∑ t ∈ Finset.range (x.length + K),
        (∑ i ∈ Finset.range (K + 1), ψ i * shifted x i t) ^ 2 := by
    have expand : ∀ t, (∑ i ∈ Finset.range (K + 1), ψ i * shifted x i t) ^ 2 =
        ∑ i ∈ Finset.range (K + 1), ∑ j ∈ Finset.range (K + 1),
          (ψ i * shifted x i t) * (ψ j * shifted x j t) := by
      intro t
      rw [sq, Finset.sum_mul_sum]
    symm
    calc ∑ t ∈ Finset.range (x.length + K),
          (∑ i ∈ Finset.range (K + 1), ψ i * shifted x i t) ^ 2
        = ∑ t ∈ Finset.range (x.length + K), ∑ i ∈ Finset.range (K + 1),
            ∑ j ∈ Finset.range (K + 1),
              (ψ i * shifted x i t) * (ψ j * shifted x j t) :=
          Finset.sum_congr rfl fun t _ => expand t
      _ = ∑ i ∈ Finset.range (K + 1), ∑ t ∈ Finset.range (x.length + K),
            ∑ j ∈ Finset.range (K + 1),
              (ψ i * shifted x i t) * (ψ j * shifted x j t) := Finset.sum_comm
      _ = ∑ i ∈ Finset.range (K + 1), ∑ j ∈ Finset.range (K + 1),
            ∑ t ∈ Finset.range (x.length + K),
              (ψ i * shifted x i t) * (ψ j * shifted x j t) :=
          Finset.sum_congr rfl fun i _ => Finset.sum_comm
      _ = ∑ i ∈ Finset.range (K + 1), ∑ j ∈ Finset.range (K + 1),
            ψ i * ψ j * covSum x (lagDist i j) := by
          apply Finset.sum_congr rfl
          intro i hi
          apply Finset.sum_congr rfl
          intro j hj
          rw [Finset.mem_range] at hi hj
          have hfactor : ∀ t, (ψ i * shifted x i t) * (ψ j * shifted x j t) =
              (ψ i * ψ j) * (shifted x i t * shifted x j t) := fun t => by ring
          rw [Finset.sum_congr rfl fun t _ => hfactor t, ← Finset.mul_sum]
          rcases le_total i j with hle | hle
          · have hL : lagDist i j = j - i := by
              unfold lagDist
              rw [if_pos hle]
            rw [shift_orth x K i j hle (by omega), hL]
          · have hL : lagDist i j = i - j := by
              unfold lagDist
              split <;> omega
            have hswap : ∀ t, shifted x i t * shifted x j t =
                shifted x j t * shifted x i t := fun t => mul_comm _ _
            rw [Finset.sum_congr rfl fun t _ => hswap t,
              shift_orth x K j i hle (by omega), hL]
  rw [key]
  exact Finset.sum_nonneg fun _ _ => sq_nonneg _

/-! ### Yule–Walker analysis of the Durbin–Levinson recursion -/

lemma sum_Icc_reflect (k : ℕ) (F : ℕ → ℚ) :
    ∑ j ∈ Finset.Icc 1 k, F j = ∑ j ∈ Finset.Icc 1 k, F (k + 1 - j) := by
  apply Finset.sum_nbij' (fun j => k + 1 - j) (fun j => k + 1 - j)
  · intro a ha
    rw [Finset.mem_Icc] at *
    omega
  · intro a ha
    rw [Finset.mem_Icc] at *
    omega
  · intro a ha
    rw [Finset.mem_Icc] at ha
    omega
  · intro a ha
    rw [Finset.mem_Icc] at ha
    omega
  · intro a ha
    rw [Finset.mem_Icc] at ha
    congr 1
    omega

/-- Reading the updated coefficient vector at an interior order. -/
lemma coef_dlUpdate (p : List ℚ) (c : ℚ) (j : ℕ) (h1 : 1 ≤ j) (h2 : j ≤ p.length) :
    coef ((p.zipWith (fun a b => a - c * b) p.reverse) ++ [c]) j =
      coef p j - c * coef p (p.length + 1 - j) := by
  have hlen : (p.zipWith (fun a b => a - c * b) p.reverse).length = p.length := by
    rw [List.length_zipWith, List.length_reverse, min_self]
  have hj1 : j - 1 < (p.zipWith (fun a b => a - c * b) p.reverse).length := by
    rw [hlen]; omega
  rw [coef, List.getD_append _ _ _ _ hj1, List.getD_eq_getElem _ _ hj1]
  rw [List.getElem_zipWith]
  rw [List.getElem_reverse]
  rw [coef, coef]
  rw [List.getD_eq_getElem _ _ (by omega : j - 1 < p.length),
    List.getD_eq_getElem _ _ (by omega : p.length + 1 - j - 1 < p.length)]
  have hidx : p.length - 1 - (j - 1) = p.length + 1 - j - 1 := by omega
  rw [getElem_congr hidx]

/-- Reading the updated coefficient vector at the new top order. -/
lemma coef_dlUpdate_last (p : List ℚ) (c : ℚ) :
    coef ((p.zipWith (fun a b => a - c * b) p.reverse) ++ [c]) (p.length + 1) = c := by
  have hlen : (p.zipWith (fun a b => a - c * b) p.reverse).length = p.length := by
    rw [List.length_zipWith, List.length_reverse, min_self]
  rw [coef, Nat.add_sub_cancel, List.getD_append_right _ _ _ _ (by omega), hlen]
  simp

/-- Characterization of an alive successor state: the previous state is
alive, the denominator is at least `epsilon`, and the coefficient
vector is the Durbin–Levinson update. -/
lemma dlIter_succ_alive (ρ : ℕ → ℚ) (k : ℕ)
    (h : (dlIter ρ (k + 1)).dead = false) :
    (dlIter ρ k).dead = false ∧
    epsilon ≤ dlDenom ρ (dlIter ρ k).phi (k + 1) ∧
    (dlIter ρ (k + 1)).phi =
      ((dlIter ρ k).phi.zipWith
        (fun a b => a -
          dlNum ρ (dlIter ρ k).phi (k + 1) / dlDenom ρ (dlIter ρ k).phi (k + 1) * b)
        (dlIter ρ k).phi.reverse) ++
      [dlNum ρ (dlIter ρ k).phi (k + 1) / dlDenom ρ (dlIter ρ k).phi (k + 1)] := by
  have hstep : dlIter ρ (k + 1) = dlStep ρ (dlIter ρ k) := rfl
  rcases hd : (dlIter ρ k).dead with _ | _
  · have hlen := (dlIter_length ρ k).1 hd
    refine ⟨rfl, ?_, ?_⟩
    · exact alive_denom ρ k h
    · by_cases hden : dlDenom ρ (dlIter ρ k).phi (k + 1) < epsilon
      · exfalso
        rw [hstep] at h
        simp only [dlStep, hd, Bool.false_eq_true, if_false, hlen] at h
        rw [if_pos hden] at h
        simp at h
      · rw [hstep]
        simp only [dlStep, hd, Bool.false_eq_true, if_false, hlen]
        rw [if_neg hden]
  · exfalso
    rw [hstep] at h
    simp [dlStep, hd] at h

/-- While the recursion is alive, its coefficient vector solves the
Yule–Walker equations for the autocorrelation sequence `ρ`. -/
lemma yule_walker (ρ : ℕ → ℚ) (hρ0 : ρ 0 = 1) :
    ∀ k, (dlIter ρ k).dead = false →
      ∀ i, 1 ≤ i → i ≤ k →
        ∑ j ∈ Finset.Icc 1 k, coef (dlIter ρ k).phi j * ρ (lagDist i j) = ρ i := by
  intro k
  induction k with
  | zero => intro _ i h1 h2; omega
  | succ k ih =>
    intro halive i h1 h2
    obtain ⟨hprev, hden, hupd⟩ := dlIter_succ_alive ρ k halive
    have hlen : (dlIter ρ k).phi.length = k := (dlIter_length ρ k).1 hprev
    set p := (dlIter ρ k).phi with hp
    set D := dlDenom ρ p (k + 1) with hD
    set N := dlNum ρ p (k + 1) with hN
    set φ := N / D with hφ
    have hε : (0 : ℚ) < epsilon := by norm_num [epsilon]
    have hD0 : D ≠ 0 := (lt_of_lt_of_le hε hden).ne'
    have hφD : φ * D = N := div_mul_cancel₀ N hD0
    have hcoef : ∀ j, 1 ≤ j → j ≤ k →
        coef (dlIter ρ (k + 1)).phi j = coef p j - φ * coef p (k + 1 - j) := by
      intro j hj1 hjk
      rw [hupd, coef_dlUpdate p φ j hj1 (by omega), hlen]
    have hlast : coef (dlIter ρ (k + 1)).phi (k + 1) = φ := by
      rw [hupd]
      have hc := coef_dlUpdate_last p φ
      rw [hlen] at hc
      exact hc
    rw [Finset.sum_Icc_succ_top (by omega : (1 : ℕ) ≤ k + 1), hlast]
    have hbody : ∑ j ∈ Finset.Icc 1 k,
        coef (dlIter ρ (k + 1)).phi j * ρ (lagDist i j)
        = ∑ j ∈ Finset.Icc 1 k,
            (coef p j - φ * coef p (k + 1 - j)) * ρ (lagDist i j) := by
      apply Finset.sum_congr rfl
      intro j hj
      rw [Finset.mem_Icc] at hj
      rw [hcoef j hj.1 hj.2]
    have hsplit : ∑ j ∈ Finset.Icc 1 k,
        (coef p j - φ * coef p (k + 1 - j)) * ρ (lagDist i j)
        = (∑ j ∈ Finset.Icc 1 k, coef p j * ρ (lagDist i j))
          - φ * ∑ j ∈ Finset.Icc 1 k, coef p (k + 1 - j) * ρ (lagDist i j) := by
      rw [Finset.mul_sum, ← Finset.sum_sub_distrib]
      exact Finset.sum_congr rfl fun j _ => by ring
    rw [hbody, hsplit]
    have hrefl : ∑ j ∈ Finset.Icc 1 k, coef p (k + 1 - j) * ρ (lagDist i j)
        = ∑ j ∈ Finset.Icc 1 k, coef p j * ρ (lagDist i (k + 1 - j)) := by
      rw [sum_Icc_reflect k fun j => coef p (k + 1 - j) * ρ (lagDist i j)]
      apply Finset.sum_congr rfl
      intro j hj
      rw [Finset.mem_Icc] at hj
      have hjj : k + 1 - (k + 1 - j) = j := by omega
      rw [hjj]
    rw [hrefl]
    rcases Nat.lt_or_ge i (k + 1) with hik | hik
    · have hik' : i ≤ k := by omega
      have hIH := ih hprev i h1 hik'
      have hsum2 : ∑ j ∈ Finset.Icc 1 k, coef p j * ρ (lagDist i (k + 1 - j))
          = ρ (k + 1 - i) := by
        have hstep : ∑ j ∈ Finset.Icc 1 k, coef p j * ρ (lagDist i (k + 1 - j))
            = ∑ j ∈ Finset.Icc 1 k, coef p j * ρ (lagDist (k + 1 - i) j) := by
          apply Finset.sum_congr rfl
          intro j hj
          rw [Finset.mem_Icc] at hj
          have hdist : lagDist i (k + 1 - j) = lagDist (k + 1 - i) j := by
            unfold lagDist
            split_ifs <;> omega
          rw [hdist]
        rw [hstep]
        exact ih hprev (k + 1 - i) (by omega) (by omega)
      have hld : lagDist i (k + 1) = k + 1 - i := by
        unfold lagDist
        rw [if_pos (by omega)]
      rw [hIH, hsum2, hld]
      ring
    · have hieq : i = k + 1 := by omega
      subst hieq
      have hs1 : ∑ j ∈ Finset.Icc 1 k, coef p j * ρ (lagDist (k + 1) j)
          = ρ (k + 1) - N := by
        have hstep : ∑ j ∈ Finset.Icc 1 k, coef p j * ρ (lagDist (k + 1) j)
            = ∑ j ∈ Finset.Icc 1 k, coef p j * ρ (k + 1 - j) := by
          apply Finset.sum_congr rfl
          intro j hj
          rw [Finset.mem_Icc] at hj
          have hd1 : lagDist (k + 1) j = k + 1 - j := by
            unfold lagDist
            split <;> omega
          rw [hd1]
        rw [hstep, hN, dlNum, Nat.add_sub_cancel]
        ring
      have hs2 : ∑ j ∈ Finset.Icc 1 k, coef p j * ρ (lagDist (k + 1) (k + 1 - j))
          = 1 - D := by
        have hstep : ∑ j ∈ Finset.Icc 1 k,
            coef p j * ρ (lagDist (k + 1) (k + 1 - j))
            = ∑ j ∈ Finset.Icc 1 k, coef p j * ρ j := by
          apply Finset.sum_congr rfl
          intro j hj
          rw [Finset.mem_Icc] at hj
          have he : lagDist (k + 1) (k + 1 - j) = j := by
            unfold lagDist
            split <;> omega
          rw [he]
        rw [hstep, hD, dlDenom, Nat.add_sub_cancel]
        ring
      rw [hs1, hs2, lagDist_self, hρ0]
      linear_combination hφD

/-- While the recursion is alive, the next denominator (the prediction
error) is nonnegative: it is the PSD quadratic form of the Yule–Walker
solution. -/
lemma dlDenom_nonneg (ρ : ℕ → ℚ) (hρ0 : ρ 0 = 1)
    (hpsd : ∀ K (ψ : ℕ → ℚ), 0 ≤ ∑ i ∈ Finset.range (K + 1),
      ∑ j ∈ Finset.range (K + 1), ψ i * ψ j * ρ (lagDist i j))
    (k : ℕ) (halive : (dlIter ρ k).dead = false) :
    0 ≤ dlDenom ρ (dlIter ρ k).phi (k + 1) := by
  set p := (dlIter ρ k).phi with hp
  set ψ : ℕ → ℚ := fun i => if i = 0 then 1 else -(coef p i) with hψdef
  have h0 := hpsd k ψ
  have hins : Finset.range (k + 1) = insert 0 (Finset.Icc 1 k) := by
    ext a
    simp only [Finset.mem_range, Finset.mem_insert, Finset.mem_Icc]
    omega
  have hnotin : (0 : ℕ) ∉ Finset.Icc 1 k := by simp
  have hψ0 : ψ 0 = 1 := by simp [hψdef]
  have hψj : ∀ j, 1 ≤ j → ψ j = -(coef p j) := by
    intro j hj
    simp only [hψdef]
    rw [if_neg (by omega)]
  rw [hins, Finset.sum_insert hnotin] at h0
  have hinner0 : ∑ j ∈ insert 0 (Finset.Icc 1 k), ψ 0 * ψ j * ρ (lagDist 0 j)
      = 1 - ∑ j ∈ Finset.Icc 1 k, coef p j * ρ j := by
    rw [Finset.sum_insert hnotin]
    have h00 : ψ 0 * ψ 0 * ρ (lagDist 0 0) = 1 := by
      rw [hψ0, lagDist_self, hρ0]
      ring
    have hj : ∀ j ∈ Finset.Icc 1 k, ψ 0 * ψ j * ρ (lagDist 0 j)
        = -(coef p j * ρ j) := by
      intro j hjm
      rw [Finset.mem_Icc] at hjm
      rw [hψ0, hψj j hjm.1, lagDist_zero_left]
      ring
    rw [h00, Finset.sum_congr rfl hj, Finset.sum_neg_distrib]
    ring
  have hyw := yule_walker ρ hρ0 k halive
  have houter : ∑ i ∈ Finset.Icc 1 k,
      ∑ j ∈ insert 0 (Finset.Icc 1 k), ψ i * ψ j * ρ (lagDist i j) = 0 := by
    have hinner : ∀ i ∈ Finset.Icc 1 k,
        ∑ j ∈ insert 0 (Finset.Icc 1 k), ψ i * ψ j * ρ (lagDist i j)
        = -(coef p i * ρ i) +
          coef p i * ∑ j ∈ Finset.Icc 1 k, coef p j * ρ (lagDist i j) := by
      intro i hi
      rw [Finset.mem_Icc] at hi
      rw [Finset.sum_insert hnotin, hψj i hi.1, hψ0,
        lagDist_zero_right i hi.1]
      congr 1
      · ring
      · rw [Finset.mul_sum]
        apply Finset.sum_congr rfl
        intro j hj
        rw [Finset.mem_Icc] at hj
        rw [hψj j hj.1]
        ring
    rw [Finset.sum_congr rfl hinner]
    have hzero : ∀ i ∈ Finset.Icc 1 k,
        -(coef p i * ρ i) +
          coef p i * ∑ j ∈ Finset.Icc 1 k, coef p j * ρ (lagDist i j) = 0 := by
      intro i hi
      rw [Finset.mem_Icc] at hi
      rw [hyw i hi.1 hi.2]
      ring
    rw [Finset.sum_congr rfl hzero, Finset.sum_const, smul_zero]
  rw [hinner0, houter, add_zero] at h0
  rw [dlDenom]
  exact h0

/-- The Levinson error recurrence: each alive step multiplies the
prediction error by `1 - φ_k[k]²`. -/
lemma dlDenom_recurrence (ρ : ℕ → ℚ) (k : ℕ)
    (halive : (dlIter ρ (k + 1)).dead = false) :
    dlDenom ρ (dlIter ρ (k + 1)).phi (k + 2) =
      dlDenom ρ (dlIter ρ k).phi (k + 1) *
        (1 - coef (dlIter ρ (k + 1)).phi (k + 1) ^ 2) := by
  obtain ⟨hprev, hden, hupd⟩ := dlIter_succ_alive ρ k halive
  have hlen : (dlIter ρ k).phi.length = k := (dlIter_length ρ k).1 hprev
  set p := (dlIter ρ k).phi with hp
  set D := dlDenom ρ p (k + 1) with hD
  set N := dlNum ρ p (k + 1) with hN
  set φ := N / D with hφ
  have hε : (0 : ℚ) < epsilon := by norm_num [epsilon]
  have hD0 : D ≠ 0 := (lt_of_lt_of_le hε hden).ne'
  have hφD : φ * D = N := div_mul_cancel₀ N hD0
  have hcoef : ∀ j, 1 ≤ j → j ≤ k →
      coef (dlIter ρ (k + 1)).phi j = coef p j - φ * coef p (k + 1 - j) := by
    intro j hj1 hjk
    rw [hupd, coef_dlUpdate p φ j hj1 (by omega), hlen]
  have hlast : coef (dlIter ρ (k + 1)).phi (k + 1) = φ := by
    rw [hupd]
    have hc := coef_dlUpdate_last p φ
    rw [hlen] at hc
    exact hc
  rw [hlast, dlDenom]
  have hred : k + 2 - 1 = k + 1 := by omega
  rw [hred]
  rw [Finset.sum_Icc_succ_top (by omega : (1 : ℕ) ≤ k + 1), hlast]
  have hbody : ∑ j ∈ Finset.Icc 1 k, coef (dlIter ρ (k + 1)).phi j * ρ j
      = ∑ j ∈ Finset.Icc 1 k, (coef p j - φ * coef p (k + 1 - j)) * ρ j := by
    apply Finset.sum_congr rfl
    intro j hj
    rw [Finset.mem_Icc] at hj
    rw [hcoef j hj.1 hj.2]
  have hsplit : ∑ j ∈ Finset.Icc 1 k, (coef p j - φ * coef p (k + 1 - j)) * ρ j
      = (∑ j ∈ Finset.Icc 1 k, coef p j * ρ j)
        - φ * ∑ j ∈ Finset.Icc 1 k, coef p (k + 1 - j) * ρ j := by
    rw [Finset.mul_sum, ← Finset.sum_sub_distrib]
    exact Finset.sum_congr rfl fun j _ => by ring
  have hrefl : ∑ j ∈ Finset.Icc 1 k, coef p (k + 1 - j) * ρ j
      = ∑ j ∈ Finset.Icc 1 k, coef p j * ρ (k + 1 - j) := by
    rw [sum_Icc_reflect k fun j => coef p (k + 1 - j) * ρ j]
    apply Finset.sum_congr rfl
    intro j hj
    rw [Finset.mem_Icc] at hj
    have hjj : k + 1 - (k + 1 - j) = j := by omega
    rw [hjj]
  have hS2 : ∑ j ∈ Finset.Icc 1 k, coef p j * ρ (k + 1 - j) = ρ (k + 1) - N := by
    have hNval : N = ρ (k + 1) -
        ∑ j ∈ Finset.Icc 1 k, coef p j * ρ (k + 1 - j) := by
      rw [hN, dlNum, Nat.add_sub_cancel]
    linarith
  have hS1 : ∑ j ∈ Finset.Icc 1 k, coef p j * ρ j = 1 - D := by
    have hDval : D = 1 - ∑ j ∈ Finset.Icc 1 k, coef p j * ρ j := by
      rw [hD, dlDenom, Nat.add_sub_cancel]
    linarith
  rw [hbody, hsplit, hrefl, hS1, hS2]
  linear_combination φ * hφD

/-- Every PACF value produced under a unit-lag-0, positive-semidefinite
autocorrelation sequence lies in `[-1, 1]`. -/
lemma pacfValue_bounds_abstract (ρ : ℕ → ℚ) (hρ0 : ρ 0 = 1)
    (hpsd : ∀ K (ψ : ℕ → ℚ), 0 ≤ ∑ i ∈ Finset.range (K + 1),
      ∑ j ∈ Finset.range (K + 1), ψ i * ψ j * ρ (lagDist i j))
    (k : ℕ) :
    -1 ≤ pacfValue ρ k ∧ pacfValue ρ k ≤ 1 := by
  rcases k with _ | m
  · have h0 : pacfValue ρ 0 = 0 := by
      simp [pacfValue, dlIter, coef]
    rw [h0]
    norm_num
  · rcases hd : (dlIter ρ (m + 1)).dead with _ | _
    · obtain ⟨hprev, hden, hupd⟩ := dlIter_succ_alive ρ m hd
      have hε : (0 : ℚ) < epsilon := by norm_num [epsilon]
      have hDpos : 0 < dlDenom ρ (dlIter ρ m).phi (m + 1) :=
        lt_of_lt_of_le hε hden
      have hrec := dlDenom_recurrence ρ m hd
      have hEnn := dlDenom_nonneg ρ hρ0 hpsd (m + 1) hd
      rw [hrec] at hEnn
      have hval : pacfValue ρ (m + 1) = coef (dlIter ρ (m + 1)).phi (m + 1) := rfl
      rw [hval]
      have hfac : 0 ≤ 1 - coef (dlIter ρ (m + 1)).phi (m + 1) ^ 2 :=
        (mul_nonneg_iff_of_pos_left hDpos).mp hEnn
      constructor
      · nlinarith [hfac, sq_nonneg (coef (dlIter ρ (m + 1)).phi (m + 1) + 1)]
      · nlinarith [hfac, sq_nonneg (coef (dlIter ρ (m + 1)).phi (m + 1) - 1)]
    · have hz := pacfValue_eq_zero_of_dead ρ (m + 1) (m + 1) hd le_rfl
      rw [hz]
      norm_num

/-- The step function only reads `ρ` at lags `1 .. order`. -/
lemma dlStep_congr (ρ ρ' : ℕ → ℚ) (s : DLState)
    (h : ∀ j, 1 ≤ j → j ≤ s.phi.length + 1 → ρ j = ρ' j) :
    dlStep ρ s = dlStep ρ' s := by
  have hden : dlDenom ρ s.phi (s.phi.length + 1) =
      dlDenom ρ' s.phi (s.phi.length + 1) := by
    unfold dlDenom
    congr 1
    apply Finset.sum_congr rfl
    intro j hj
    rw [Finset.mem_Icc] at hj
    rw [h j hj.1 (by omega)]
  have hnum : dlNum ρ s.phi (s.phi.length + 1) =
      dlNum ρ' s.phi (s.phi.length + 1) := by
    unfold dlNum
    rw [h (s.phi.length + 1) (by omega) le_rfl]
    congr 1
    apply Finset.sum_congr rfl
    intro j hj
    rw [Finset.mem_Icc] at hj
    rw [h (s.phi.length + 1 - j) (by omega) (by omega)]
  rcases hd : s.dead with _ | _
  · simp only [dlStep, hd, Bool.false_eq_true, if_false]
    rw [hden, hnum]
  · simp [dlStep, hd]

/-- The iterated recursion only reads `ρ` at lags `1 .. k`. -/
lemma dlIter_congr (ρ ρ' : ℕ → ℚ) (k : ℕ)
    (h : ∀ j, 1 ≤ j → j ≤ k → ρ j = ρ' j) :
    dlIter ρ k = dlIter ρ' k := by
  induction k with
  | zero => rfl
  | succ k ih =>
    have hk : ∀ j, 1 ≤ j → j ≤ k → ρ j = ρ' j :=
      fun j h1 h2 => h j h1 (by omega)
    show dlStep ρ (dlIter ρ k) = dlStep ρ' (dlIter ρ' k)
    rw [← ih hk]
    apply dlStep_congr
    intro j h1 h2
    apply h j h1
    have hlen : (dlIter ρ k).phi.length ≤ k := by
      rcases hdd : (dlIter ρ k).dead with _ | _
      · exact le_of_eq ((dlIter_length ρ k).1 hdd)
      · exact le_of_lt ((dlIter_length ρ k).2 hdd)
    omega

lemma pacfValue_congr (ρ ρ' : ℕ → ℚ) (k : ℕ)
    (h : ∀ j, 1 ≤ j → j ≤ k → ρ j = ρ' j) :
    pacfValue ρ k = pacfValue ρ' k := by
  rw [pacfValue, pacfValue, dlIter_congr ρ ρ' k h]

/-- The sample ACF is positive semidefinite (non-degenerate case). -/
lemma acf_psd (x : List ℚ) (h : autocovariance x 0 ≠ 0) (K : ℕ) (ψ : ℕ → ℚ) :
    0 ≤ ∑ i ∈ Finset.range (K + 1), ∑ j ∈ Finset.range (K + 1),
      ψ i * ψ j * acfValue x (lagDist i j) := by
  have hval := acfValue_eq_ratio x h
  have hpos := covSum_zero_pos x h
  have heq : ∑ i ∈ Finset.range (K + 1), ∑ j ∈ Finset.range (K + 1),
      ψ i * ψ j * acfValue x (lagDist i j)
      = (∑ i ∈ Finset.range (K + 1), ∑ j ∈ Finset.range (K + 1),
          ψ i * ψ j * covSum x (lagDist i j)) / covSum x 0 := by
    rw [Finset.sum_div]
    apply Finset.sum_congr rfl
    intro i _
    rw [Finset.sum_div]
    apply Finset.sum_congr rfl
    intro j _
    rw [hval, mul_div_assoc]
  rw [heq]
  exact div_nonneg (gram_psd x K ψ) hpos.le

lemma acfValue_lag_zero (x : List ℚ) (h : autocovariance x 0 ≠ 0) :
    acfValue x 0 = 1 := by
  rw [acfValue, if_neg h, div_self h]

/-! ### Claim theorems -/

/-- C1: for every valid series with `n ≥ 2` and every configured cap,
`computeACF` (as invoked by the coordinator with
`maxLag = min(cap, n-1)`) returns exactly `min(cap, n-1)` lag
coefficients, whose lags are `1, 2, …, min(cap, n-1)`: strictly
ascending, starting at 1, one entry per lag, no gaps, and no lag-0
entry. -/
theorem computeACF_shape (x : List ℚ) (cap : ℕ) (h : 2 ≤ x.length) :
    (analyze x cap).autocorrelations.length = min cap (x.length - 1) ∧
    (analyze x cap).autocorrelations.map Prod.fst =
      List.range' 1 (min cap (x.length - 1)) := by
  constructor
  · simp [analyze, computeACF]
  · simp only [analyze, computeACF, List.map_map]
    rw [List.range'_eq_map_range]
    apply List.map_congr_left
    intro i _
    simp [Nat.add_comm]

/-- Witness for `computeACF_shape` at the concrete series
`[3, 1, 4, 1, 5]` with cap 10. -/
theorem computeACF_shape_witness :
    2 ≤ ([3, 1, 4, 1, 5] : List ℚ).length ∧
    ((analyze [3, 1, 4, 1, 5] 10).autocorrelations.length =
        min 10 (([3, 1, 4, 1, 5] : List ℚ).length - 1) ∧
      (analyze [3, 1, 4, 1, 5] 10).autocorrelations.map Prod.fst =
        List.range' 1 (min 10 (([3, 1, 4, 1, 5] : List ℚ).length - 1))) :=
  ⟨by norm_num, computeACF_shape [3, 1, 4, 1, 5] 10 (by norm_num)⟩

lemma getD_map_range {α : Type*} (f : ℕ → α) (m i : ℕ) (d : α) (h : i < m) :
    ((List.range m).map f).getD i d = f i := by
  rw [List.getD_eq_getElem?_getD, List.getElem?_map, List.getElem?_range h]
  rfl

/-- The ACF lookup over the `computeACF` output recovers `acfValue` at
every lag that was computed. -/
lemma rhoOf_computeACF (x : List ℚ) (m k : ℕ) (h1 : 1 ≤ k) (h2 : k ≤ m) :
    rhoOf (computeACF x m) k = acfValue x k := by
  have hk : k - 1 < m := by omega
  have hk1 : k - 1 + 1 = k := by omega
  rw [rhoOf, computeACF, getD_map_range _ _ _ _ hk]
  simp [hk1]

lemma coef_replicate_zero (n j : ℕ) : coef (List.replicate n (0 : ℚ)) j = 0 := by
  unfold coef
  rcases Nat.lt_or_ge (j - 1) n with h | h
  · rw [List.getD_eq_getElem _ _ (by simpa using h)]
    simp
  · rw [List.getD_eq_default _ _ (by simpa using h)]

/-- If every ACF value from lag 1 on is `0`, the Durbin–Levinson
recursion stays alive and produces the all-zero coefficient vector. -/
lemma dlIter_zero_rho (ρ : ℕ → ℚ) (hρ : ∀ j, 1 ≤ j → ρ j = 0) :
    ∀ k, dlIter ρ k = ⟨List.replicate k 0, false⟩ := by
  intro k
  induction k with
  | zero => simp [dlIter]
  | succ k ih =>
    have hden : dlDenom ρ (List.replicate k (0 : ℚ)) (k + 1) = 1 := by
      unfold dlDenom
      simp [coef_replicate_zero]
    have hnum : dlNum ρ (List.replicate k (0 : ℚ)) (k + 1) = 0 := by
      unfold dlNum
      simp [coef_replicate_zero, hρ (k + 1) (by omega)]
    have hstep : dlIter ρ (k + 1) = dlStep ρ (dlIter ρ k) := rfl
    rw [hstep, ih]
    unfold dlStep
    simp only [List.length_replicate, hden, hnum]
    have : ¬ ((1 : ℚ) < epsilon) := by norm_num [epsilon]
    simp [this, List.replicate_succ' k (0 : ℚ)]

/-- If every ACF value from lag 1 on is `0`, every reported PACF value
is `0`. -/
lemma pacfValue_zero_rho (ρ : ℕ → ℚ) (hρ : ∀ j, 1 ≤ j → ρ j = 0) (k : ℕ) :
    pacfValue ρ k = 0 := by
  rw [pacfValue, dlIter_zero_rho ρ hρ k]
  exact coef_replicate_zero k k

lemma computeACF_length (x : List ℚ) (m : ℕ) : (computeACF x m).length = m := by
  simp [computeACF]

/-- C4: the PACF value reported at lag 1 equals the ACF value at lag 1
(Durbin–Levinson base case), whenever the analysis produces at least one
lag. -/
theorem pacf_lag_one_eq_acf_lag_one (x : List ℚ) (cap : ℕ)
    (h : 1 ≤ min cap (x.length - 1)) :
    (analyze x cap).pacf.getD 0 (0, 0) =
      (analyze x cap).autocorrelations.getD 0 (0, 0) := by
  simp only [analyze, computePACF, computeACF]
  rw [getD_map_range _ _ _ _ h, getD_map_range _ _ _ _ h]
  rw [pacfValue_one, ← computeACF, rhoOf_computeACF x _ 1 le_rfl h]

/-- Witness for `pacf_lag_one_eq_acf_lag_one` at `[1, 2, 3]`, cap 5. -/
theorem pacf_lag_one_eq_acf_lag_one_witness :
    1 ≤ min 5 (([1, 2, 3] : List ℚ).length - 1) ∧
    (analyze [1, 2, 3] 5).pacf.getD 0 (0, 0) =
      (analyze [1, 2, 3] 5).autocorrelations.getD 0 (0, 0) :=
  ⟨by norm_num, pacf_lag_one_eq_acf_lag_one [1, 2, 3] 5 (by norm_num)⟩

lemma seriesMean_replicate (n : ℕ) (c : ℚ) (hn : 1 ≤ n) :
    seriesMean (List.replicate n c) = c := by
  have h0 : (n : ℚ) ≠ 0 := by positivity
  simp [seriesMean, List.sum_replicate, nsmul_eq_mul]
  field_simp

lemma centered_replicate (n : ℕ) (c : ℚ) (t : ℕ) (ht : t < n) :
    centered (List.replicate n c) t = 0 := by
  have hn : 1 ≤ n := by omega
  rw [centered, seriesMean_replicate n c hn,
    List.getD_eq_getElem _ _ (by simpa using ht)]
  simp

lemma covSum_replicate (n : ℕ) (c : ℚ) (k : ℕ) :
    covSum (List.replicate n c) k = 0 := by
  rw [covSum]
  apply Finset.sum_eq_zero
  intro t ht
  rw [List.length_replicate] at ht
  have ht' : t < n := by
    have := Finset.mem_range.mp ht
    omega
  rw [centered_replicate n c t ht', zero_mul]

lemma acfValue_replicate (n : ℕ) (c : ℚ) (k : ℕ) :
    acfValue (List.replicate n c) k = 0 := by
  have h0 : autocovariance (List.replicate n c) 0 = 0 := by
    rw [autocovariance, covSum_replicate, zero_div]
  rw [acfValue, if_pos h0]

lemma rho_replicate (n : ℕ) (c : ℚ) (m : ℕ) :
    ∀ j, 1 ≤ j →
      rhoOf (computeACF (List.replicate n c) m) j = 0 := by
  intro j hj
  rcases le_or_lt j m with h | h
  · rw [rhoOf_computeACF _ _ _ hj h, acfValue_replicate]
  · rw [rhoOf, List.getD_eq_default]
    rw [computeACF_length]
    omega

lemma trendCoefficient_replicate (n : ℕ) (c : ℚ) :
    trendCoefficient (List.replicate n c) = 0 := by
  have hxy : sxy (List.replicate n c) = 0 := by
    rw [sxy]
    apply Finset.sum_eq_zero
    intro i hi
    rw [List.length_replicate] at hi ⊢
    have hi' : i < n := Finset.mem_range.mp hi
    have : List.getD (List.replicate n c) i 0 - seriesMean (List.replicate n c) =
        centered (List.replicate n c) i := rfl
    rw [this, centered_replicate n c i hi', mul_zero]
  rw [trendCoefficient]
  split
  · rfl
  · rw [hxy, zero_div]

lemma hasTrend_replicate (n : ℕ) (c : ℚ) :
    hasTrend (List.replicate n c) = false := by
  rw [hasTrend, trendCoefficient_replicate]
  norm_num

/-- C2: for every constant series (`n ≥ 2`), the zero-variance case is
handled by the explicit branch: every reported ACF and PACF value is
exactly `0`, the trend coefficient is `0` and `hasTrend` is `false`;
and concretely, the analysis of `[5,5,5,5,5]` (three configured lags)
reports ACF `[(1,0), (2,0), (3,0)]` and likewise for the PACF. -/
theorem constant_series_analysis (c : ℚ) (n cap : ℕ) (hn : 2 ≤ n) :
    (∀ p ∈ (analyze (List.replicate n c) cap).autocorrelations, p.2 = 0) ∧
    (∀ p ∈ (analyze (List.replicate n c) cap).pacf, p.2 = 0) ∧
    (analyze (List.replicate n c) cap).trendCoefficient = 0 ∧
    (analyze (List.replicate n c) cap).hasTrend = false ∧
    (analyze [5, 5, 5, 5, 5] 3).autocorrelations = [(1, 0), (2, 0), (3, 0)] ∧
    (analyze [5, 5, 5, 5, 5] 3).pacf = [(1, 0), (2, 0), (3, 0)] := by
  refine ⟨?_, ?_, trendCoefficient_replicate n c, hasTrend_replicate n c, ?_, ?_⟩
  · intro p hp
    simp only [analyze, computeACF, List.mem_map, List.mem_range] at hp
    obtain ⟨i, _, rfl⟩ := hp
    exact acfValue_replicate n c (i + 1)
  · intro p hp
    simp only [analyze, computePACF, List.mem_map, List.mem_range] at hp
    obtain ⟨i, _, rfl⟩ := hp
    exact pacfValue_zero_rho _ (rho_replicate n c _) (i + 1)
  · norm_num [analyze, computeACF, acfValue, autocovariance, covSum, centered, seriesMean,
      List.range_succ, Finset.sum_range_succ]
  · norm_num [analyze, computePACF, computeACF, pacfValue, dlIter, dlStep, dlNum, dlDenom,
      coef, epsilon, rhoOf, acfValue, autocovariance, covSum, centered, seriesMean,
      List.range_succ, Finset.sum_range_succ, Finset.Icc_self, Finset.sum_Icc_succ_top]

/-- Witness for `constant_series_analysis` at `c = 7`, `n = 4`,
cap 10. -/
theorem constant_series_analysis_witness :
    2 ≤ 4 ∧
    ((∀ p ∈ (analyze (List.replicate 4 (7 : ℚ)) 10).autocorrelations, p.2 = 0) ∧
      (∀ p ∈ (analyze (List.replicate 4 (7 : ℚ)) 10).pacf, p.2 = 0) ∧
      (analyze (List.replicate 4 (7 : ℚ)) 10).trendCoefficient = 0 ∧
      (analyze (List.replicate 4 (7 : ℚ)) 10).hasTrend = false ∧
      (analyze [5, 5, 5, 5, 5] 3).autocorrelations = [(1, 0), (2, 0), (3, 0)] ∧
      (analyze [5, 5, 5, 5, 5] 3).pacf = [(1, 0), (2, 0), (3, 0)]) :=
  ⟨by norm_num, constant_series_analysis 7 4 10 (by norm_num)⟩

/-- C3: if the Durbin–Levinson denominator at some step `k ≥ 1` falls
below `epsilon`, then `computePACF` reports `0` at lag `k` and at every
remaining lag, and a division is performed at a step only when its
denominator is at least `epsilon`. -/
theorem computePACF_denominator_guard (acf : List (ℕ × ℚ)) (maxLag k : ℕ)
    (hk : 1 ≤ k)
    (hden : dlDenom (rhoOf acf) (dlIter (rhoOf acf) (k - 1)).phi k < epsilon) :
    (∀ p ∈ computePACF acf maxLag, k ≤ p.1 → p.2 = 0) ∧
    (∀ m, (dlIter (rhoOf acf) (m + 1)).dead = false →
      epsilon ≤ dlDenom (rhoOf acf) (dlIter (rhoOf acf) m).phi (m + 1)) := by
  constructor
  · intro p hp hkp
    simp only [computePACF, List.mem_map, List.mem_range] at hp
    obtain ⟨i, _, rfl⟩ := hp
    exact pacfValue_eq_zero_of_dead _ k (i + 1)
      (dead_of_denom_lt _ k hk hden) hkp
  · exact fun m => alive_denom (rhoOf acf) m

/-- Witness for `computePACF_denominator_guard`: the perfectly
persistent ACF `ρ₁ = 1` drives the step-2 denominator to `0 < epsilon`,
and lags 2 and 3 are reported as `0`. -/
theorem computePACF_denominator_guard_witness :
    (1 ≤ 2 ∧
      dlDenom (rhoOf [((1 : ℕ), (1 : ℚ))])
        (dlIter (rhoOf [((1 : ℕ), (1 : ℚ))]) (2 - 1)).phi 2 < epsilon) ∧
    ((∀ p ∈ computePACF [((1 : ℕ), (1 : ℚ))] 3, 2 ≤ p.1 → p.2 = 0) ∧
      (∀ m, (dlIter (rhoOf [((1 : ℕ), (1 : ℚ))]) (m + 1)).dead = false →
        epsilon ≤ dlDenom (rhoOf [((1 : ℕ), (1 : ℚ))])
          (dlIter (rhoOf [((1 : ℕ), (1 : ℚ))]) m).phi (m + 1))) := by
  have hden : dlDenom (rhoOf [((1 : ℕ), (1 : ℚ))])
      (dlIter (rhoOf [((1 : ℕ), (1 : ℚ))]) (2 - 1)).phi 2 < epsilon := by
    norm_num [dlDenom, dlIter, dlStep, dlNum, coef, rhoOf, epsilon,
      Finset.Icc_self]
  exact ⟨⟨by norm_num, hden⟩,
    computePACF_denominator_guard [((1 : ℕ), (1 : ℚ))] 3 2 (by norm_num) hden⟩

lemma sum_range_add_one (n : ℕ) :
    ∑ i ∈ Finset.range n, ((i : ℚ) + 1) = n * (n + 1) / 2 := by
  induction n with
  | zero => simp
  | succ n ih =>
    rw [Finset.sum_range_succ, ih]
    push_cast
    ring

lemma sum_index_sub_mean (n : ℕ) :
    ∑ i ∈ Finset.range n, (((i : ℚ) + 1) - indexMean n) = 0 := by
  rw [Finset.sum_sub_distrib, sum_range_add_one, Finset.sum_const,
    Finset.card_range, nsmul_eq_mul, indexMean]
  ring

lemma sum_getD (x : List ℚ) :
    ∑ i ∈ Finset.range x.length, x.getD i 0 = x.sum := by
  induction x with
  | nil => simp
  | cons a l ih =>
    rw [List.length_cons, Finset.sum_range_succ', List.sum_cons]
    simp only [List.getD_cons_succ, List.getD_cons_zero]
    rw [ih]
    ring

lemma sum_dev (x : List ℚ) (h : 1 ≤ x.length) :
    ∑ i ∈ Finset.range x.length, (x.getD i 0 - seriesMean x) = 0 := by
  have h0 : (x.length : ℚ) ≠ 0 := by positivity
  rw [Finset.sum_sub_distrib, sum_getD, Finset.sum_const, Finset.card_range,
    nsmul_eq_mul, seriesMean]
  field_simp

lemma sxx_nonneg (n : ℕ) : 0 ≤ sxx n :=
  Finset.sum_nonneg fun _ _ => sq_nonneg _

lemma sxx_pos (n : ℕ) (h : 2 ≤ n) : 0 < sxx n := by
  apply Finset.sum_pos' (fun i _ => sq_nonneg _)
  refine ⟨0, Finset.mem_range.mpr (by omega), ?_⟩
  have hn : (2 : ℚ) ≤ n := by exact_mod_cast h
  have hne : ((0 : ℚ) + 1) - indexMean n < 0 := by
    rw [indexMean]
    linarith
  exact pow_two_pos_of_ne_zero (ne_of_lt hne)

/-- Normal equation of the OLS slope: `m · Sxx = Sxy`. -/
lemma trend_normal_eq (x : List ℚ) (h : 2 ≤ x.length) :
    trendCoefficient x * sxx x.length = sxy x := by
  have hs : sxx x.length ≠ 0 := (sxx_pos _ h).ne'
  rw [trendCoefficient, if_neg hs]
  field_simp

/-- The optimal residuals sum to zero. -/
lemma sum_resid (x : List ℚ) (h : 1 ≤ x.length) :
    ∑ i ∈ Finset.range x.length,
      (x.getD i 0 - seriesMean x -
        trendCoefficient x * (((i : ℚ) + 1) - indexMean x.length)) = 0 := by
  have e1 : ∀ i ∈ Finset.range x.length,
      x.getD i 0 - seriesMean x -
        trendCoefficient x * (((i : ℚ) + 1) - indexMean x.length) =
      (x.getD i 0 - seriesMean x) -
        trendCoefficient x * (((i : ℚ) + 1) - indexMean x.length) :=
    fun i _ => by ring
  rw [Finset.sum_congr rfl e1, Finset.sum_sub_distrib, sum_dev x h,
    ← Finset.mul_sum, sum_index_sub_mean]
  ring

/-- The optimal residuals are orthogonal to the centered index. -/
lemma sum_resid_z (x : List ℚ) (h : 2 ≤ x.length) :
    ∑ i ∈ Finset.range x.length,
      ((x.getD i 0 - seriesMean x -
          trendCoefficient x * (((i : ℚ) + 1) - indexMean x.length)) *
        (((i : ℚ) + 1) - indexMean x.length)) = 0 := by
  have expand : ∑ i ∈ Finset.range x.length,
      ((x.getD i 0 - seriesMean x -
          trendCoefficient x * (((i : ℚ) + 1) - indexMean x.length)) *
        (((i : ℚ) + 1) - indexMean x.length)) =
      sxy x - trendCoefficient x * sxx x.length := by
    rw [sxy, sxx, Finset.mul_sum, ← Finset.sum_sub_distrib]
    apply Finset.sum_congr rfl
    intro i _
    ring
  rw [expand, trend_normal_eq x h]
  ring

/-- Key decomposition: for any candidate line `a + b·i`, the sum of
squared residuals exceeds the one at
(`olsIntercept`, `trendCoefficient`) by two nonnegative penalty
terms. -/
lemma sse_decomposition (x : List ℚ) (a b : ℚ) (h : 2 ≤ x.length) :
    sse x a b =
      sse x (olsIntercept x) (trendCoefficient x)
      + (x.length : ℚ) * (seriesMean x - a - b * indexMean x.length) ^ 2
      + (trendCoefficient x - b) ^ 2 *
          (∑ i ∈ Finset.range x.length, (((i : ℚ) + 1) - indexMean x.length) ^ 2) := by
  have hn1 : 1 ≤ x.length := by omega
  have hL : sse x a b =
      ∑ i ∈ Finset.range x.length,
        ((x.getD i 0 - seriesMean x -
            trendCoefficient x * (((i : ℚ) + 1) - indexMean x.length)) ^ 2
         + (seriesMean x - a - b * indexMean x.length) ^ 2
         + (trendCoefficient x - b) ^ 2 * (((i : ℚ) + 1) - indexMean x.length) ^ 2
         + (2 * (seriesMean x - a - b * indexMean x.length)) *
             (x.getD i 0 - seriesMean x -
               trendCoefficient x * (((i : ℚ) + 1) - indexMean x.length))
         + (2 * (trendCoefficient x - b)) *
             ((x.getD i 0 - seriesMean x -
                 trendCoefficient x * (((i : ℚ) + 1) - indexMean x.length)) *
               (((i : ℚ) + 1) - indexMean x.length))
         + (2 * ((seriesMean x - a - b * indexMean x.length) * (trendCoefficient x - b))) *
             (((i : ℚ) + 1) - indexMean x.length)) := by
    rw [sse]
    apply Finset.sum_congr rfl
    intro i _
    ring
  have hR : sse x (olsIntercept x) (trendCoefficient x) =
      ∑ i ∈ Finset.range x.length,
        (x.getD i 0 - seriesMean x -
          trendCoefficient x * (((i : ℚ) + 1) - indexMean x.length)) ^ 2 := by
    rw [sse, olsIntercept]
    apply Finset.sum_congr rfl
    intro i _
    ring
  rw [hL, hR]
  simp only [Finset.sum_add_distrib]
  simp only [← Finset.mul_sum]
  rw [sum_resid x hn1, sum_resid_z x h, sum_index_sub_mean,
    Finset.sum_const, Finset.card_range, nsmul_eq_mul]
  ring

/-- C6: `estimateTrend` reports the exact ordinary-least-squares slope:
its (intercept, slope) pair minimizes the sum of squared residuals over
all affine fits against the index `1..n`; and for the perfectly linear
series `[1,…,10]` the reported slope is exactly `1` with
`hasTrend = true`. -/
theorem estimateTrend_exact_ols (x : List ℚ) (a b : ℚ) (h : 2 ≤ x.length) :
    sse x (olsIntercept x) (trendCoefficient x) ≤ sse x a b ∧
    estimateTrend [1, 2, 3, 4, 5, 6, 7, 8, 9, 10] = (1, true) := by
  constructor
  · rw [sse_decomposition x a b h]
    have h1 : 0 ≤ (x.length : ℚ) * (seriesMean x - a - b * indexMean x.length) ^ 2 := by
      positivity
    have h2 : 0 ≤ (trendCoefficient x - b) ^ 2 *
        (∑ i ∈ Finset.range x.length, (((i : ℚ) + 1) - indexMean x.length) ^ 2) :=
      mul_nonneg (sq_nonneg _) (Finset.sum_nonneg fun _ _ => sq_nonneg _)
    linarith
  · norm_num [estimateTrend, trendCoefficient, hasTrend, sxx, sxy, seriesMean,
      indexMean, Finset.sum_range_succ]

/-- Witness for `estimateTrend_exact_ols` at `[1, 3, 2, 5, 4]` against
the candidate line `0 + 1·i`. -/
theorem estimateTrend_exact_ols_witness :
    2 ≤ ([1, 3, 2, 5, 4] : List ℚ).length ∧
    (sse [1, 3, 2, 5, 4] (olsIntercept [1, 3, 2, 5, 4])
        (trendCoefficient [1, 3, 2, 5, 4]) ≤ sse [1, 3, 2, 5, 4] 0 1 ∧
      estimateTrend [1, 2, 3, 4, 5, 6, 7, 8, 9, 10] = (1, true)) :=
  ⟨by norm_num, estimateTrend_exact_ols [1, 3, 2, 5, 4] 0 1 (by norm_num)⟩

/-- C7: `hasTrend` is exactly the 95% significance test against the
band `1.96/√n`: it is true iff the slope magnitude exceeds `1.96/√n`
(a threshold that scales with the sample size, not a fixed cutoff), and
it is a deterministic function of the slope coefficient and `n` alone. -/
theorem hasTrend_significance (x : List ℚ) (h : 0 < x.length) :
    (hasTrend x = true ↔
      1.96 / Real.sqrt x.length < |(trendCoefficient x : ℝ)|) ∧
    (∀ y : List ℚ, trendCoefficient y = trendCoefficient x →
      y.length = x.length → hasTrend y = hasTrend x) := by
  constructor
  · rw [hasTrend, decide_eq_true_eq]
    have hN : (0 : ℝ) < (x.length : ℝ) := by exact_mod_cast h
    have hs : (0 : ℝ) < Real.sqrt x.length := Real.sqrt_pos.mpr hN
    have hcast : ((49 / 25 : ℚ) ^ 2 < trendCoefficient x ^ 2 * x.length) ↔
        ((49 / 25 : ℝ) ^ 2 < (trendCoefficient x : ℝ) ^ 2 * (x.length : ℝ)) := by
      rw [← Rat.cast_lt (K := ℝ)]
      push_cast
      rfl
    rw [hcast, show (1.96 : ℝ) = 49 / 25 by norm_num]
    constructor
    · intro hlt
      rw [div_lt_iff₀ hs]
      apply lt_of_pow_lt_pow_left₀ 2 (by positivity)
      rw [mul_pow, sq_abs, Real.sq_sqrt hN.le]
      exact hlt
    · intro hgt
      rw [div_lt_iff₀ hs] at hgt
      have := pow_lt_pow_left₀ hgt (by norm_num) (by norm_num : (2:ℕ) ≠ 0)
      rwa [mul_pow, sq_abs, Real.sq_sqrt hN.le] at this
  · intro y h1 h2
    rw [hasTrend, hasTrend, h1, h2]

/-- Witness for `hasTrend_significance` at `[1, 2, 3]`. -/
theorem hasTrend_significance_witness :
    0 < ([1, 2, 3] : List ℚ).length ∧
    ((hasTrend [1, 2, 3] = true ↔
        1.96 / Real.sqrt (([1, 2, 3] : List ℚ).length) <
          |(trendCoefficient [1, 2, 3] : ℝ)|) ∧
      (∀ y : List ℚ, trendCoefficient y = trendCoefficient [1, 2, 3] →
        y.length = ([1, 2, 3] : List ℚ).length →
        hasTrend y = hasTrend [1, 2, 3])) :=
  ⟨by norm_num, hasTrend_significance [1, 2, 3] (by norm_num)⟩

/-- C8: the narrative-feedback call is a post-hoc enrichment: when it
fails (modelled by `none`), the already-computed analysis result is
returned bit-for-bit unchanged, with no narrative field
(`aiFeedback = none` straight out of `analyze`); and even on success
every other field of the result is untouched, so absence of the
narrative is always a valid result. -/
theorem aiFeedback_failure_absorbed (x : List ℚ) (cap : ℕ) (r : AnalysisResults) :
    applyAiFeedback (analyze x cap) none = analyze x cap ∧
    (analyze x cap).aiFeedback = none ∧
    applyAiFeedback r none = r ∧
    ∀ fb : String,
      (applyAiFeedback r (some fb)).autocorrelations = r.autocorrelations ∧
      (applyAiFeedback r (some fb)).pacf = r.pacf ∧
      (applyAiFeedback r (some fb)).trendCoefficient = r.trendCoefficient ∧
      (applyAiFeedback r (some fb)).hasTrend = r.hasTrend :=
  ⟨rfl, rfl, rfl, fun _ => ⟨rfl, rfl, rfl, rfl⟩⟩

/-- C10: the chart's significance band is total: it equals
`1.96 / √n` for `n > 0`, is defined as `0` at `n = 0` (no division by
zero), and is always a finite real in `[0, 1.96]`. -/
theorem confidenceLimit_spec (n : ℕ) (h : 0 < n) :
    confidenceLimit n = 1.96 / Real.sqrt n ∧
    confidenceLimit 0 = 0 ∧
    0 ≤ confidenceLimit n ∧ confidenceLimit n ≤ 1.96 := by
  have h1 : (1 : ℝ) ≤ Real.sqrt n := by
    rw [Real.one_le_sqrt]
    exact_mod_cast h
  have hval : confidenceLimit n = 1.96 / Real.sqrt n := if_pos h
  refine ⟨hval, if_neg (lt_irrefl 0), ?_, ?_⟩
  · rw [hval]
    positivity
  · rw [hval]
    calc (1.96 : ℝ) / Real.sqrt n ≤ 1.96 / 1 := by
          apply div_le_div_of_nonneg_left (by norm_num) (by norm_num) h1
    _ = 1.96 := by norm_num

/-- Witness for `confidenceLimit_spec` at `n = 4`. -/
theorem confidenceLimit_spec_witness :
    0 < 4 ∧
    (confidenceLimit 4 = 1.96 / Real.sqrt 4 ∧
      confidenceLimit 0 = 0 ∧
      0 ≤ confidenceLimit 4 ∧ confidenceLimit 4 ≤ 1.96) :=
  ⟨by norm_num, confidenceLimit_spec 4 (by norm_num)⟩

/-- C5: every ACF coefficient and every PACF coefficient produced by the
analysis of any input series lies in the closed interval `[-1, 1]`. -/
theorem analysis_values_bounded (x : List ℚ) (cap : ℕ) :
    (∀ p ∈ (analyze x cap).autocorrelations, -1 ≤ p.2 ∧ p.2 ≤ 1) ∧
    (∀ p ∈ (analyze x cap).pacf, -1 ≤ p.2 ∧ p.2 ≤ 1) := by
  constructor
  · intro p hp
    simp only [analyze, computeACF, List.mem_map, List.mem_range] at hp
    obtain ⟨i, _, rfl⟩ := hp
    exact acfValue_bounds x (i + 1)
  · intro p hp
    simp only [analyze, computePACF, List.mem_map, List.mem_range] at hp
    obtain ⟨i, hi, rfl⟩ := hp
    show -1 ≤ pacfValue (rhoOf (computeACF x (min cap (x.length - 1)))) (i + 1) ∧
      pacfValue (rhoOf (computeACF x (min cap (x.length - 1)))) (i + 1) ≤ 1
    have hcongr : pacfValue (rhoOf (computeACF x (min cap (x.length - 1)))) (i + 1)
        = pacfValue (fun j => acfValue x j) (i + 1) := by
      apply pacfValue_congr
      intro j h1 h2
      exact rhoOf_computeACF x _ j h1 (by omega)
    rw [hcongr]
    by_cases hdeg : autocovariance x 0 = 0
    · have hz : ∀ j, 1 ≤ j → acfValue x j = 0 := by
        intro j _
        rw [acfValue, if_pos hdeg]
      rw [pacfValue_zero_rho _ hz]
      norm_num
    · exact pacfValue_bounds_abstract _ (acfValue_lag_zero x hdeg)
        (acf_psd x hdeg) (i + 1)


end TSA
